import Mathlib

set_option maxHeartbeats 1000000
set_option maxRecDepth 100000

/-!
Shallow embedding of the Huffman decoding-table reader of brunsli
(`src/c/dec/huffman_decode.cc`) together with proofs about it.

The file under study uses two external collaborators that are not part of the
studied source: the bit-level reader (`bit_reader.h`) and the canonical-table
builder (`BuildHuffmanTable` from `huffman_table.h`), plus two format
constants (`kHuffmanTableBits`, `kMaxHuffmanBits`).  Those are modelled from
the specification (section 6 of the design document); all other definitions
are direct transcriptions of the C source.
-/

/-- Modelled from the spec: a lookup-table entry, a pair of a bit width and a
value (a decoded symbol, or, in a root entry wider than the root width, a
relative offset of a second-level sub-table).  In the C source this is the
`HuffmanCode` struct of `huffman_table.h` (`uint8_t bits`, `uint16_t value`),
which is outside the studied file. -/
structure HuffmanCode where
  bits : Nat
  value : Nat
deriving DecidableEq

/-- Modelled from the spec: the Bit Source state.  `bits` is the list of bits
still available from the underlying stream (first element is the first bit
delivered, least significant in a multi-bit read) and `healthy` is the health
flag, cleared once a consume advances past the actually available bits.  The C
type `BrunsliBitReader` lives in `bit_reader.h`, outside the studied file. -/
structure BrunsliBitReader where
  bits : List Bool
  healthy : Bool
deriving DecidableEq

/-- Numeric value of a bit list, first element least significant. -/
def natOfBits : List Bool → Nat
  | [] => 0
  | b :: rest => (if b then 1 else 0) + 2 * natOfBits rest

/-- Little-endian encoding of `v` in exactly `width` bits (used to build
concrete streams in theorems about the reader). -/
def natToBits : Nat → Nat → List Bool
  | 0, _ => []
  | width + 1, v => (v % 2 = 1) :: natToBits width (v / 2)

/-- Modelled from the spec: peek(n) reads the next `n` bits without consuming
them, zero padding past the end of the stream. -/
def BrunsliBitReaderGet (br : BrunsliBitReader) (n : Nat) : Nat :=
  natOfBits (br.bits.take n)

/-- Modelled from the spec: consume(n) advances by `n` bits; advancing past
the actually available bits clears the health flag. -/
def BrunsliBitReaderDrop (br : BrunsliBitReader) (n : Nat) : BrunsliBitReader :=
  { bits := br.bits.drop n
    healthy := br.healthy && decide (n ≤ br.bits.length) }

/-- Modelled from the spec: read(n) is peek(n) followed by consume(n). -/
def BrunsliBitReaderRead (br : BrunsliBitReader) (n : Nat) :
    Nat × BrunsliBitReader :=
  (BrunsliBitReaderGet br n, BrunsliBitReaderDrop br n)

/-- Modelled from the spec: the health check of the Bit Source. -/
def BrunsliBitReaderIsHealthy (br : BrunsliBitReader) : Bool :=
  br.healthy

/-- Line 20 of the source: size of the meta-alphabet. -/
def kCodeLengthCodes : Nat := 18

/-- Lines 21-23 of the source: fixed traversal order of the meta-alphabet
code lengths. -/
def kCodeLengthCodeOrder : List Nat :=
  [1, 2, 3, 4, 0, 5, 17, 6, 16, 7, 8, 9, 10, 11, 12, 13, 14, 15]

/-- Line 24 of the source. -/
def kDefaultCodeLength : Nat := 8

/-- Line 25 of the source. -/
def kCodeLengthRepeatCode : Nat := 16

/-- Modelled from the spec: ROOT_BITS, the root width of the two-level table.
It is declared in `huffman_table.h`, outside the studied file; the design
document leaves the value open, and it is fixed here to 8, consistent with
the `alphabet_size + 376` overflow margin visible at line 238 of the source
(the brotli-family margin for root width 8 and maximal depth 15). -/
def kHuffmanTableBits : Nat := 8

/-- Modelled from the spec: MAX_BITS, the ceiling on code lengths, bounding
supported alphabets by `2 ^ kMaxHuffmanBits` at line 195 of the source.  It is
declared outside the studied file; the design document suggests 15, which
matches the depth-15 Kraft space accounting of `ReadHuffmanCodeLengths`. -/
def kMaxHuffmanBits : Nat := 15

/-- Line 34 of the source: `const int kFullSpace = 1 << 15`. -/
def kFullSpace : Int := 32768

/-- Lines 60-78 of the source: the state update of one repeat instruction
(meta symbol 16 or 17) of `ReadHuffmanCodeLengths`, given the decoded meta
symbol `code_len`, the current `prev_code_len`, running `rep`eat total,
current `repeat_code_len`, and the raw value `v` read in `extra_bits` bits.
Returns the new repeat total, the new repeat target length, and
`repeat_delta`.  (All subtractions are exact on states the loop can reach:
the running repeat total is 0 or at least 3.) -/
def updateRepeat (code_len prev_code_len rep repeat_code_len v : Nat) :
    Nat × Nat × Nat :=
  let extra_bits := code_len - 14
  let new_len := if code_len = kCodeLengthRepeatCode then prev_code_len else 0
  let st := if repeat_code_len ≠ new_len then (0, new_len)
            else (rep, repeat_code_len)
  let old_repeat := st.1
  let r1 := if 0 < st.1 then (st.1 - 2) <<< extra_bits else st.1
  let r2 := r1 + v + 3
  (r2, st.2, r2 - old_repeat)

/-- Outcome of the main loop of `ReadHuffmanCodeLengths`: either the early
`return false` of line 80 (repeat run overflowing `num_symbols`), or normal
loop exit with the emitted lengths, the final `space` and the final reader. -/
inductive RLEExit where
  | fail (lens : List Nat) (br : BrunsliBitReader)
  | exit (lens : List Nat) (space : Int) (br : BrunsliBitReader)
deriving DecidableEq

/-- Emitted lengths of either outcome. -/
def RLEExit.lengths : RLEExit → List Nat
  | .fail lens _ => lens
  | .exit lens _ _ => lens

/-- Lines 47-88 of the source: the main loop of `ReadHuffmanCodeLengths`.
The output buffer is modelled as the list of lengths written so far (the C
code writes `code_lengths[symbol]` exactly when `symbol = lens.length`).
The loop is driven by an explicit `fuel` counter for structural recursion;
every iteration emits at least one length, so fuel `num_symbols + 1` (as
supplied by `ReadHuffmanCodeLengths`) can never run out — see
`readLengthsLoop_isSome`. -/
def readLengthsLoop (table : Nat → HuffmanCode) (num_symbols : Nat) :
    Nat → Nat → Nat → Nat → Nat → Int → List Nat → BrunsliBitReader →
    Option RLEExit
  | 0, _, _, _, _, _, _, _ => none
  | fuel + 1, symbol, prev_code_len, rep, repeat_code_len, space, lens, br =>
    if symbol < num_symbols ∧ 0 < space then
      let p := table (BrunsliBitReaderGet br 5)
      let br1 := BrunsliBitReaderDrop br p.bits
      let code_len := p.value
      if code_len < kCodeLengthRepeatCode then
        readLengthsLoop table num_symbols fuel (symbol + 1)
          (if code_len ≠ 0 then code_len else prev_code_len) 0 repeat_code_len
          (if code_len ≠ 0 then space - ((32768 >>> code_len : Nat) : Int)
           else space)
          (lens ++ [code_len]) br1
      else
        let rd := BrunsliBitReaderRead br1 (code_len - 14)
        let u := updateRepeat code_len prev_code_len rep repeat_code_len rd.1
        if num_symbols < symbol + u.2.2 then some (.fail lens rd.2)
        else
          readLengthsLoop table num_symbols fuel (symbol + u.2.2) prev_code_len
            u.1 u.2.1
            (if u.2.1 ≠ 0 then
               space - (((u.2.2 * 32768) >>> u.2.1 : Nat) : Int)
             else space)
            (lens ++ List.replicate u.2.2 u.2.1) rd.2
    else some (.exit lens space br)

/-- Lines 27-94 of the source: `ReadHuffmanCodeLengths`.  The external
`BuildHuffmanTable` call of line 42 (root width 5 over the 18-symbol
meta-alphabet, from `huffman_table.h`, outside the studied file) is modelled
by the `metaBuild` parameter: `none` models a failed build (zero table size),
`some table` a successful one, in which case `table i` is the entry at index
`i` of the 32-entry table.  The result is the returned boolean, the output
buffer contents, and the final reader state. -/
def ReadHuffmanCodeLengths (metaBuild : List Nat → Option (Nat → HuffmanCode))
    (code_length_code_lengths : List Nat) (num_symbols : Nat)
    (br : BrunsliBitReader) : Bool × List Nat × BrunsliBitReader :=
  match metaBuild code_length_code_lengths with
  | none => (false, [], br)
  | some table =>
    match readLengthsLoop table num_symbols (num_symbols + 1) 0
        kDefaultCodeLength 0 0 kFullSpace [] br with
    | none => (false, [], br)
    | some (.fail lens br1) => (false, lens, br1)
    | some (.exit lens space br1) =>
      if space = 0 then
        (BrunsliBitReaderIsHealthy br1,
         lens ++ List.replicate (num_symbols - lens.length) 0, br1)
      else (false, lens, br1)

/-- Lines 105-111 of the source: read `count` symbol values of `max_bits` bits
each, immediately returning `none` when a decoded value is at least
`alphabet_size` (line 108, without reading further symbols). -/
def readSymbols (alphabet_size max_bits : Nat) :
    Nat → BrunsliBitReader → Option (List Nat) × BrunsliBitReader
  | 0, br => (some [], br)
  | count + 1, br =>
    let rd := BrunsliBitReaderRead br max_bits
    if alphabet_size ≤ rd.1 then (none, rd.2)
    else
      match readSymbols alphabet_size max_bits count rd.2 with
      | (some rest, br2) => (some (rd.1 :: rest), br2)
      | (none, br2) => (none, br2)

/-- Lines 113-117 of the source: the pairwise duplicate test over the
enumerated symbols (`true` exactly when two of them are equal). -/
def hasDup : List Nat → Bool
  | [] => false
  | x :: xs => xs.contains x || hasDup xs

/-- Lines 128-177 of the source: the `switch (num_symbols)` of
`ReadSimpleCode`, hand-assigning canonical entries after the per-case sorting
swaps.  `syms.getD i 0` models the pre-zeroed `uint16_t symbols[4]` array.
Returns the updated table and `table_size`, or `none` for the unreachable
`default` case (which returns `false` in C). -/
def buildSimpleTable (num_symbols : Nat) (syms : List Nat)
    (table : List HuffmanCode) : Option (List HuffmanCode × Nat) :=
  let s0 := syms.getD 0 0
  let s1 := syms.getD 1 0
  let s2 := syms.getD 2 0
  let s3 := syms.getD 3 0
  match num_symbols with
  | 1 => some (table.set 0 ⟨0, s0⟩, 1)
  | 2 =>
    let t := if s1 < s0 then (s1, s0) else (s0, s1)
    some (((table.set 0 ⟨1, t.1⟩).set 1 ⟨1, t.2⟩), 2)
  | 3 =>
    let t := if s2 < s1 then (s2, s1) else (s1, s2)
    some (((((table.set 0 ⟨1, s0⟩).set 2 ⟨1, s0⟩).set 1 ⟨2, t.1⟩).set 3
      ⟨2, t.2⟩), 4)
  | 4 =>
    -- lines 148-152: full exchange sort of the four symbols
    let u1 := if s1 < s0 then (s1, s0, s2, s3) else (s0, s1, s2, s3)
    let u2 := if u1.2.2.1 < u1.1 then (u1.2.2.1, u1.2.1, u1.1, u1.2.2.2)
              else u1
    let u3 := if u2.2.2.2 < u2.1 then (u2.2.2.2, u2.2.1, u2.2.2.1, u2.1)
              else u2
    let u4 := if u3.2.2.1 < u3.2.1 then (u3.1, u3.2.2.1, u3.2.1, u3.2.2.2)
              else u3
    let u5 := if u4.2.2.2 < u4.2.1 then (u4.1, u4.2.2.2, u4.2.2.1, u4.2.1)
              else u4
    let u6 := if u5.2.2.2 < u5.2.2.1 then (u5.1, u5.2.1, u5.2.2.2, u5.2.2.1)
              else u5
    some (((((table.set 0 ⟨2, u6.1⟩).set 2 ⟨2, u6.2.1⟩).set 1
      ⟨2, u6.2.2.1⟩).set 3 ⟨2, u6.2.2.2⟩), 4)
  | 5 =>
    let t := if s3 < s2 then (s3, s2) else (s2, s3)
    some (((((((((table.set 0 ⟨1, s0⟩).set 1 ⟨2, s1⟩).set 2 ⟨1, s0⟩).set 3
      ⟨3, t.1⟩).set 4 ⟨1, s0⟩).set 5 ⟨2, s1⟩).set 6 ⟨1, s0⟩).set 7
      ⟨3, t.2⟩), 8)
  | _ => none

/-- Lines 180-184 of the source: replicate the small table by doubling until
it fills `goal` entries, `memcpy(&table[size], &table[0], size)` modelled on
the list.  Driven by fuel for structural recursion; the reachable calls start
from sizes 1, 2, 4 or 8 with goal `2 ^ kHuffmanTableBits`, hitting `goal`
exactly within `goal` doublings (a start that is 0 or misses `goal` would not
terminate in C and is unreachable). -/
def replicateTableFuel : Nat → List HuffmanCode → Nat → Nat → List HuffmanCode
  | 0, table, _, _ => table
  | fuel + 1, table, size, goal =>
    if size = goal then table
    else
      replicateTableFuel fuel
        (table.take size ++ table.take size ++ table.drop (2 * size))
        (2 * size) goal

/-- The replication loop of lines 179-184 of the source. -/
def replicateTable (table : List HuffmanCode) (size goal : Nat) :
    List HuffmanCode :=
  replicateTableFuel (goal + 1) table size goal

/-- Lines 99-100 of the source: the symbol-index width of a simple code,
`Log2FloorNonZero(alphabet_size - 1) + 1` for alphabets larger than 1 and 0
bits otherwise (`Nat.log2` is the floor base-2 logarithm). -/
def simpleMaxBits (alphabet_size : Nat) : Nat :=
  if 1 < alphabet_size then Nat.log2 (alphabet_size - 1) + 1 else 0

/-- Lines 96-187 of the source: `ReadSimpleCode`.  `alphabet_size` is the
(already truncated) `uint8_t` argument; `table` is the destination buffer of
`1 <<< kHuffmanTableBits` entries.  Returns the returned boolean, the buffer
contents and the final reader. -/
def ReadSimpleCode (alphabet_size : Nat) (br : BrunsliBitReader)
    (table : List HuffmanCode) :
    Bool × List HuffmanCode × BrunsliBitReader :=
  let max_bits := simpleMaxBits alphabet_size
  let rd := BrunsliBitReaderRead br 2
  let num_symbols := rd.1 + 1
  match readSymbols alphabet_size max_bits num_symbols rd.2 with
  | (none, br2) => (false, table, br2)
  | (some syms, br2) =>
    if hasDup syms then (false, table, br2)
    else
      -- line 120: 4 symbols have the option to encode a fifth shape bit
      let nb := if num_symbols = 4 then
                  let rd1 := BrunsliBitReaderRead br2 1
                  (num_symbols + rd1.1, rd1.2)
                else (num_symbols, br2)
      match buildSimpleTable nb.1 syms table with
      | none => (false, table, nb.2)
      | some (t, size) =>
        (BrunsliBitReaderIsHealthy nb.2,
         replicateTable t size (2 ^ kHuffmanTableBits), nb.2)

/-- Lines 212-215 of the source: the static Huffman code for the meta-code
lengths. -/
def kStaticCodeLengthHuff : List HuffmanCode :=
  [⟨2, 0⟩, ⟨2, 4⟩, ⟨2, 3⟩, ⟨3, 2⟩, ⟨2, 0⟩, ⟨2, 4⟩, ⟨2, 3⟩, ⟨4, 1⟩,
   ⟨2, 0⟩, ⟨2, 4⟩, ⟨2, 3⟩, ⟨3, 2⟩, ⟨2, 0⟩, ⟨2, 4⟩, ⟨2, 3⟩, ⟨4, 5⟩]

/-- Lines 218-222 of the source: decode one meta-code length.  The reader
peeks 4 bits to index the 16-entry static table and then drops that entry's
own bit width. -/
def readMetaCodeLen (br : BrunsliBitReader) : Nat × BrunsliBitReader :=
  let p := kStaticCodeLengthHuff.getD (BrunsliBitReaderGet br 4) ⟨0, 0⟩
  (p.value, BrunsliBitReaderDrop br p.bits)

/-- Lines 216-228 of the source: the meta-code length reading loop, iterating
over the remaining positions of the traversal order while `0 < space`.
Returns the 18 code lengths, the final `space`, `num_codes`, and the reader. -/
def readMetaLoop :
    List Nat → List Nat → Int → Nat → BrunsliBitReader →
    List Nat × Int × Nat × BrunsliBitReader
  | [], lens, space, num_codes, br => (lens, space, num_codes, br)
  | idx :: rest, lens, space, num_codes, br =>
    if 0 < space then
      let rd := readMetaCodeLen br
      if rd.1 ≠ 0 then
        readMetaLoop rest (lens.set idx rd.1)
          (space - ((32 >>> rd.1 : Nat) : Int)) (num_codes + 1) rd.2
      else readMetaLoop rest (lens.set idx rd.1) space num_codes rd.2
    else (lens, space, num_codes, br)

/-- The decoder object: its stored table `table_` (a `std::vector` in C,
modelled as the list of its entries). -/
structure HuffmanDecodingData where
  table_ : List HuffmanCode
deriving DecidableEq

/-- Line 203 of the source: `std::vector::resize`, truncating or padding with
value-initialized entries. -/
def resizeTable (t : List HuffmanCode) (n : Nat) : List HuffmanCode :=
  t.take n ++ List.replicate (n - t.length) ⟨0, 0⟩

/-- Lines 189-244 of the source: `HuffmanDecodingData::ReadFromBitStream`.
The two external `BuildHuffmanTable` calls are modelled by parameters:
`metaBuild` for the internal root-width-5 meta table (see
`ReadHuffmanCodeLengths`), and `mainBuild` for the final root-width-8 table
over the real alphabet, whose result list models the `table_size` entries
written into the arena (an empty list models a zero `table_size`, i.e.
builder failure).  Returns the returned boolean, the updated object, and the
final reader. -/
def ReadFromBitStream (metaBuild : List Nat → Option (Nat → HuffmanCode))
    (mainBuild : List Nat → List HuffmanCode) (alphabet_size : Nat)
    (br : BrunsliBitReader) (self : HuffmanDecodingData) :
    Bool × HuffmanDecodingData × BrunsliBitReader :=
  if 2 ^ kMaxHuffmanBits < alphabet_size then (false, self, br)
  else
    let rd := BrunsliBitReaderRead br 2
    if rd.1 = 1 then
      -- line 204: the alphabet size is truncated to uint8_t here
      let r := ReadSimpleCode (alphabet_size % 256) rd.2
        (resizeTable self.table_ (2 ^ kHuffmanTableBits))
      (r.1, ⟨r.2.1⟩, r.2.2)
    else
      let m := readMetaLoop (kCodeLengthCodeOrder.drop rd.1)
        (List.replicate kCodeLengthCodes 0) 32 0 rd.2
      let rl := if m.2.2.1 = 1 ∨ m.2.1 = 0 then
                  ReadHuffmanCodeLengths metaBuild m.1 alphabet_size m.2.2.2
                else (false, [], m.2.2.2)
      if rl.1 = false ∨ BrunsliBitReaderIsHealthy rl.2.2 = false then
        (false, self, rl.2.2)
      else
        let code_lengths := rl.2.1 ++
          List.replicate (alphabet_size - rl.2.1.length) 0
        let tbl := mainBuild code_lengths
        (0 < tbl.length, ⟨tbl⟩, rl.2.2)

/-- Lines 247-260 of the source: `HuffmanDecodingData::ReadSymbol`.  Table
reads are modelled with `getD` (the C code reads through a raw pointer; every
table the builder produces keeps the accesses in bounds). -/
def ReadSymbol (d : HuffmanDecodingData) (br : BrunsliBitReader) :
    Nat × BrunsliBitReader :=
  let i := BrunsliBitReaderGet br kHuffmanTableBits
  let e := d.table_.getD i ⟨0, 0⟩
  if kHuffmanTableBits < e.bits then
    let br1 := BrunsliBitReaderDrop br kHuffmanTableBits
    let j := BrunsliBitReaderGet br1 (e.bits - kHuffmanTableBits)
    let e2 := d.table_.getD (i + e.value + j) ⟨0, 0⟩
    (e2.value, BrunsliBitReaderDrop br1 e2.bits)
  else (e.value, BrunsliBitReaderDrop br e.bits)

/-- Section 4.4 of the design document, written from its words for claim C5:
peek ROOT_BITS bits to index the root table; if the entry's bit width fits
within ROOT_BITS, consume that many bits and return the value; otherwise
consume ROOT_BITS bits, peek `bit_width - ROOT_BITS` further bits to index
into the second-level sub-table located at the offset `value` (an offset the
builder stores relative to the root entry's own slot), and consume that
entry's own bit width, returning its value. -/
def ReadSymbolSpec (d : HuffmanDecodingData) (br : BrunsliBitReader) :
    Nat × BrunsliBitReader :=
  let i := BrunsliBitReaderGet br kHuffmanTableBits
  let e := d.table_.getD i ⟨0, 0⟩
  if e.bits ≤ kHuffmanTableBits then (e.value, BrunsliBitReaderDrop br e.bits)
  else
    let br1 := BrunsliBitReaderDrop br kHuffmanTableBits
    let j := BrunsliBitReaderGet br1 (e.bits - kHuffmanTableBits)
    let e2 := d.table_.getD (i + e.value + j) ⟨0, 0⟩
    (e2.value, BrunsliBitReaderDrop br1 e2.bits)

/-- The value peeked from `n` bits is below `2 ^ n`. -/
theorem natOfBits_lt (l : List Bool) : natOfBits l < 2 ^ l.length := by
  induction l with
  | nil => simp [natOfBits]
  | cons b t ih =>
    simp only [natOfBits, List.length_cons, pow_succ]
    cases b <;> simp <;> omega

/-- A peek of `n` bits yields a value below `2 ^ n`. -/
theorem BrunsliBitReaderGet_lt (br : BrunsliBitReader) (n : Nat) :
    BrunsliBitReaderGet br n < 2 ^ n :=
  lt_of_lt_of_le (natOfBits_lt _)
    (Nat.pow_le_pow_right (by norm_num)
      (le_trans (List.length_take_le _ _) le_rfl))

/-- Dropping zero bits leaves the reader unchanged. -/
theorem BrunsliBitReaderDrop_zero (br : BrunsliBitReader) :
    BrunsliBitReaderDrop br 0 = br := by
  simp [BrunsliBitReaderDrop]

/-- C5: `HuffmanDecodingData::ReadSymbol` implements exactly the two-level
procedure described by the specification (`ReadSymbolSpec`, written from the
spec's words: peek `kHuffmanTableBits` bits, and either consume the root
entry's width and return its value, or consume `kHuffmanTableBits` bits, peek
the remaining width to index the sub-table at the root entry's offset, and
consume the sub-entry's width returning its value); it is total, so it never
reports failure, and the bits it consumes are exactly the root entry's width,
or `kHuffmanTableBits` plus the sub-entry's width. -/
theorem ReadSymbol_eq_spec (d : HuffmanDecodingData) (br : BrunsliBitReader) :
    ReadSymbol d br = ReadSymbolSpec d br ∧
    (ReadSymbol d br).2.bits =
      (let i := BrunsliBitReaderGet br kHuffmanTableBits
       let e := d.table_.getD i ⟨0, 0⟩
       if e.bits ≤ kHuffmanTableBits then br.bits.drop e.bits
       else
         let br1 := BrunsliBitReaderDrop br kHuffmanTableBits
         let e2 := d.table_.getD
           (i + e.value + BrunsliBitReaderGet br1 (e.bits - kHuffmanTableBits))
           ⟨0, 0⟩
         br.bits.drop (kHuffmanTableBits + e2.bits)) := by
  constructor
  · simp only [ReadSymbol, ReadSymbolSpec]
    split_ifs with h1 h2 <;> first | rfl | omega
  · simp only [ReadSymbol]
    split_ifs with h1 h2 <;>
      first
        | omega
        | simp [BrunsliBitReaderDrop, List.drop_drop, Nat.add_comm]

/-- C3 counterexample: on an all-zero stream, the selected static-table entry
has width 2, so decoding one meta-code length consumes 2 bits, not 4. -/
theorem readMetaCodeLen_not_four_bits :
    4 ≤ (⟨[false, false, false, false], true⟩ : BrunsliBitReader).bits.length ∧
    (⟨[false, false, false, false], true⟩ :
        BrunsliBitReader).bits.length -
      (readMetaCodeLen ⟨[false, false, false, false], true⟩).2.bits.length
      = 2 ∧
    ¬ ((⟨[false, false, false, false], true⟩ :
        BrunsliBitReader).bits.length -
      (readMetaCodeLen ⟨[false, false, false, false], true⟩).2.bits.length
      = 4) := by
  decide

/-- C3 amended: decoding one meta-code length peeks 4 bits, returns the
selected static-table entry's value, and consumes exactly that entry's own
bit width, which is between 2 and 4 bits (not always 4). -/
theorem readMetaCodeLen_consumption (br : BrunsliBitReader) :
    (readMetaCodeLen br).1 =
      (kStaticCodeLengthHuff.getD (BrunsliBitReaderGet br 4) ⟨0, 0⟩).value ∧
    (readMetaCodeLen br).2.bits.length =
      br.bits.length -
        (kStaticCodeLengthHuff.getD (BrunsliBitReaderGet br 4) ⟨0, 0⟩).bits ∧
    2 ≤ (kStaticCodeLengthHuff.getD (BrunsliBitReaderGet br 4) ⟨0, 0⟩).bits ∧
    (kStaticCodeLengthHuff.getD (BrunsliBitReaderGet br 4) ⟨0, 0⟩).bits ≤ 4 := by
  have h16 : BrunsliBitReaderGet br 4 < 16 := by
    have := BrunsliBitReaderGet_lt br 4
    norm_num at this
    exact this
  refine ⟨rfl, ?_, ?_, ?_⟩
  · simp [readMetaCodeLen, BrunsliBitReaderDrop]
  · interval_cases h : BrunsliBitReaderGet br 4 <;> decide
  · interval_cases h : BrunsliBitReaderGet br 4 <;> decide

/-- C4 counterexample: continuing a same-target repeat run with prior total 3
and a symbol-16 instruction reading raw value 0 yields a new total of
`((3 - 2) <<< 2) + 0 + 3 = 7`, not `(3 <<< 2) + 0 + 3 = 15`: the prior count
is decremented by 2 before the shift, so the claim's plain left-shift fold is
not what the code computes. -/
theorem updateRepeat_not_plain_shift :
    (updateRepeat 16 8 3 8 0).1 = 7 ∧
    ¬ ((updateRepeat 16 8 3 8 0).1 = (3 <<< 2) + 0 + 3) := by
  decide

/-- C4 amended: a repeat instruction (meta symbol 16 or 17) has
`extra_bits = code_len - 14` (2 or 3); its target length is `prev_code_len`
for symbol 16 (`kDefaultCodeLength = 8` being the initial `prev_code_len` of
`ReadHuffmanCodeLengths`) and 0 for symbol 17; when the target equals the
previous repeat target and the running repeat count is positive, the new
total is the prior count minus 2, left-shifted by `extra_bits`, plus the raw
value plus 3 (so consecutive same-target repeats compound); otherwise the
baseline resets and the new total is the raw value plus 3. -/
theorem updateRepeat_spec (code_len prev rep repLen v : Nat)
    (h : code_len = 16 ∨ code_len = 17) :
    updateRepeat code_len prev rep repLen v =
      (let target := if code_len = 16 then prev else 0
       if repLen = target ∧ 0 < rep then
         (((rep - 2) <<< (code_len - 14)) + v + 3, target,
          ((rep - 2) <<< (code_len - 14)) + v + 3 - rep)
       else (v + 3, target, v + 3)) ∧
    (code_len = 16 → code_len - 14 = 2) ∧
    (code_len = 17 → code_len - 14 = 3) ∧
    kDefaultCodeLength = 8 := by
  refine ⟨?_, by omega, by omega, rfl⟩
  have hne : (17 : Nat) ≠ 16 := by omega
  rcases h with h | h <;> subst h <;>
    by_cases h1 : repLen = prev <;> by_cases h0 : repLen = 0 <;>
    by_cases h2 : 0 < rep <;>
    simp_all [updateRepeat, kCodeLengthRepeatCode, Prod.ext_iff] <;>
    split_ifs <;> simp_all <;> omega

/-- C7: when the decoded meta symbol is a repeat instruction whose
`repeat_delta` would advance `symbol` past `num_symbols`, the loop returns
the failure outcome immediately, with the output buffer exactly as it was —
none of the repeated lengths is emitted. -/
theorem readLengthsLoop_overflow_fails (table : Nat → HuffmanCode)
    (ns fuel symbol prev rep repLen : Nat) (space : Int) (lens : List Nat)
    (br : BrunsliBitReader) (hs : symbol < ns) (hsp : 0 < space)
    (hrep : ¬ (table (BrunsliBitReaderGet br 5)).value < kCodeLengthRepeatCode)
    (hover : ns < symbol +
      (updateRepeat (table (BrunsliBitReaderGet br 5)).value prev rep repLen
        (BrunsliBitReaderRead
          (BrunsliBitReaderDrop br (table (BrunsliBitReaderGet br 5)).bits)
          ((table (BrunsliBitReaderGet br 5)).value - 14)).1).2.2) :
    readLengthsLoop table ns (fuel + 1) symbol prev rep repLen space lens br =
      some (.fail lens
        (BrunsliBitReaderRead
          (BrunsliBitReaderDrop br (table (BrunsliBitReaderGet br 5)).bits)
          ((table (BrunsliBitReaderGet br 5)).value - 14)).2) := by
  simp only [readLengthsLoop]
  rw [if_pos ⟨hs, hsp⟩, if_neg hrep, if_pos hover]

/-- Witness for the amended C4 statement at a concrete repeat state:
symbol 17 continuing a zero-length run of prior total 4 with raw value 1
compounds to `((4 - 2) <<< 3) + 1 + 3 = 20`, a delta of 16. -/
theorem updateRepeat_spec_witness :
    updateRepeat 17 5 4 0 1 = (20, 0, 16) ∧
    ((17 : Nat) = 16 → (17 : Nat) - 14 = 2) ∧
    ((17 : Nat) = 17 → (17 : Nat) - 14 = 3) ∧
    kDefaultCodeLength = 8 :=
  updateRepeat_spec 17 5 4 0 1 (Or.inr rfl)

/-- Witness for C7 at a concrete state: a symbol-17 table with
`num_symbols = 1` overflows on the very first repeat (delta 3) and fails
with an empty output buffer. -/
theorem readLengthsLoop_overflow_fails_witness :
    readLengthsLoop (fun _ => ⟨0, 17⟩) 1 (0 + 1) 0 8 0 0 32768 []
        ⟨[], true⟩ = some (.fail [] ⟨[], false⟩) :=
  readLengthsLoop_overflow_fails (fun _ => ⟨0, 17⟩) 1 0 0 8 0 0 32768 []
    ⟨[], true⟩ (by decide) (by decide) (by decide) (by decide)

/-- Every repeat instruction advances `symbol`: `repeat_delta` is at least
one (in fact at least three from a fresh baseline). -/
theorem updateRepeat_delta_pos (code_len prev rep repLen v : Nat) :
    1 ≤ (updateRepeat code_len prev rep repLen v).2.2 := by
  have key : ∀ a e : Nat, a ≤ a <<< e := by
    intro a e
    rw [Nat.shiftLeft_eq]
    exact Nat.le_mul_of_pos_right _ (Nat.pos_pow_of_pos _ (by norm_num))
  simp only [updateRepeat]
  split_ifs with h1 h2 h3 <;> simp_all <;>
    first
      | omega
      | (have h4 := key (rep - 2) (kCodeLengthRepeatCode - 14); omega)
      | (have h4 := key (rep - 2) (code_len - 14); omega)

/-- Fuel sufficiency: with more fuel than `num_symbols - symbol` the loop
always reaches one of its two outcomes, because every iteration emits at
least one length.  `ReadHuffmanCodeLengths` therefore never hits the
fuel-exhaustion branch with its fuel of `num_symbols + 1`. -/
theorem readLengthsLoop_isSome (table : Nat → HuffmanCode) (ns : Nat) :
    ∀ fuel symbol prev rep repLen space lens br,
      ns - symbol < fuel →
      (readLengthsLoop table ns fuel symbol prev rep repLen space lens
        br).isSome = true := by
  intro fuel
  induction fuel with
  | zero => intro symbol _ _ _ _ _ _ hf; omega
  | succ f ih =>
    intro symbol prev rep repLen space lens br hf
    simp only [readLengthsLoop]
    split
    · next hg =>
      split
      · exact ih _ _ _ _ _ _ _ (by omega)
      · split
        · simp
        · refine ih _ _ _ _ _ _ _ ?_
          have := updateRepeat_delta_pos
            (table (BrunsliBitReaderGet br 5)).value prev rep repLen
            (BrunsliBitReaderRead
              (BrunsliBitReaderDrop br
                (table (BrunsliBitReaderGet br 5)).bits)
              ((table (BrunsliBitReaderGet br 5)).value - 14)).1
          omega
    · simp

/-- Invariant of the loop: starting from a buffer holding exactly `symbol`
entries with `symbol ≤ num_symbols`, every outcome's buffer holds at most
`num_symbols` entries (the C loop never writes at an index that is not below
`num_symbols`). -/
theorem readLengthsLoop_lengths_le (table : Nat → HuffmanCode) (ns : Nat) :
    ∀ fuel symbol prev rep repLen space lens br r,
      readLengthsLoop table ns fuel symbol prev rep repLen space lens br =
        some r →
      lens.length = symbol → symbol ≤ ns → r.lengths.length ≤ ns := by
  intro fuel
  induction fuel with
  | zero => intro _ _ _ _ _ _ _ r h; simp [readLengthsLoop] at h
  | succ f ih =>
    intro symbol prev rep repLen space lens br r h hl hs
    simp only [readLengthsLoop] at h
    split at h
    · next hg =>
      split at h
      · exact ih _ _ _ _ _ _ _ _ h (by simp [hl]) (by omega)
      · split at h
        · next hover =>
          cases h
          simpa [RLEExit.lengths, hl] using hs
        · next hover =>
          exact ih _ _ _ _ _ _ _ _ h (by simp [hl]) (by omega)
    · cases h
      simpa [RLEExit.lengths, hl] using hs

/-- Entries of a replicated list below the count. -/
theorem getD_replicate_of_lt {α : Type} (a d : α) :
    ∀ n i, i < n → (List.replicate n a).getD i d = a := by
  intro n
  induction n with
  | zero => intro i h; omega
  | succ m ih =>
    intro i h
    cases i with
    | zero => simp [List.replicate_succ]
    | succ j => simpa [List.replicate_succ] using ih j (by omega)

/-- C1: assuming the meta-alphabet table build succeeds and the loop exits
normally (no repeat run overflowed `num_symbols`), `ReadHuffmanCodeLengths`
returns `true` exactly when the Kraft space budget at loop exit is 0 and the
bit source is healthy; and on success the output buffer is the emitted
lengths padded with zero lengths up to `num_symbols`, so every position after
the last emitted symbol holds length 0. -/
theorem ReadHuffmanCodeLengths_exact_space
    (metaBuild : List Nat → Option (Nat → HuffmanCode))
    (cl : List Nat) (ns : Nat) (br : BrunsliBitReader)
    (table : Nat → HuffmanCode) (hb : metaBuild cl = some table)
    (L : List Nat) (s : Int) (br1 : BrunsliBitReader)
    (hl : readLengthsLoop table ns (ns + 1) 0 kDefaultCodeLength 0 0 kFullSpace
        [] br = some (RLEExit.exit L s br1)) :
    ((ReadHuffmanCodeLengths metaBuild cl ns br).1 = true ↔
      (s = 0 ∧ br1.healthy = true)) ∧
    ((ReadHuffmanCodeLengths metaBuild cl ns br).1 = true →
      (ReadHuffmanCodeLengths metaBuild cl ns br).2.1 =
        L ++ List.replicate (ns - L.length) 0) ∧
    (∀ i, L.length ≤ i → i < ns →
      (ReadHuffmanCodeLengths metaBuild cl ns br).1 = true →
      (ReadHuffmanCodeLengths metaBuild cl ns br).2.1.getD i 1 = 0) := by
  have hlen : L.length ≤ ns := by
    have := readLengthsLoop_lengths_le table ns (ns + 1) 0 kDefaultCodeLength
      0 0 kFullSpace [] br (RLEExit.exit L s br1) hl rfl (by omega)
    simpa [RLEExit.lengths] using this
  simp only [ReadHuffmanCodeLengths, hb, hl]
  by_cases hs : s = 0
  · subst hs
    rw [if_pos rfl]
    refine ⟨by simp [BrunsliBitReaderIsHealthy], by simp, ?_⟩
    intro i hi hins _
    show (L ++ List.replicate (ns - L.length) 0).getD i 1 = 0
    rw [List.getD_append_right _ _ _ _ hi]
    exact getD_replicate_of_lt 0 1 _ _ (by omega)
  · simp [hs]

/-- Witness for C1: a meta table whose every entry decodes length 1 with one
bit consumed, over two symbols and a two-bit stream, exits with space 0, a
healthy reader, and the buffer `[1, 1]` (no padding needed). -/
theorem ReadHuffmanCodeLengths_exact_space_witness :
    ((ReadHuffmanCodeLengths (fun _ => some fun _ => ⟨1, 1⟩) [] 2
        ⟨[false, false], true⟩).1 = true ↔
      ((0 : Int) = 0 ∧
        (⟨[], true⟩ : BrunsliBitReader).healthy = true)) ∧
    ((ReadHuffmanCodeLengths (fun _ => some fun _ => ⟨1, 1⟩) [] 2
        ⟨[false, false], true⟩).1 = true →
      (ReadHuffmanCodeLengths (fun _ => some fun _ => ⟨1, 1⟩) [] 2
        ⟨[false, false], true⟩).2.1 =
        [1, 1] ++ List.replicate (2 - [1, 1].length) 0) ∧
    (∀ i, [1, 1].length ≤ i → i < 2 →
      (ReadHuffmanCodeLengths (fun _ => some fun _ => ⟨1, 1⟩) [] 2
        ⟨[false, false], true⟩).1 = true →
      (ReadHuffmanCodeLengths (fun _ => some fun _ => ⟨1, 1⟩) [] 2
        ⟨[false, false], true⟩).2.1.getD i 1 = 0) :=
  ReadHuffmanCodeLengths_exact_space (fun _ => some fun _ => ⟨1, 1⟩) [] 2
    ⟨[false, false], true⟩ (fun _ => ⟨1, 1⟩) rfl [1, 1] 0 ⟨[], true⟩
    (by decide)

/-- C10: the output buffer of `ReadHuffmanCodeLengths` never extends past
`num_symbols` entries (every C-side write lands at an index below
`num_symbols`); on success, the final zero fill makes it exactly
`num_symbols` entries. -/
theorem ReadHuffmanCodeLengths_bounded
    (metaBuild : List Nat → Option (Nat → HuffmanCode))
    (cl : List Nat) (ns : Nat) (br : BrunsliBitReader) :
    (ReadHuffmanCodeLengths metaBuild cl ns br).2.1.length ≤ ns ∧
    ((ReadHuffmanCodeLengths metaBuild cl ns br).1 = true →
      (ReadHuffmanCodeLengths metaBuild cl ns br).2.1.length = ns) := by
  cases hb : metaBuild cl with
  | none => simp [ReadHuffmanCodeLengths, hb]
  | some table =>
    cases hl : readLengthsLoop table ns (ns + 1) 0 kDefaultCodeLength 0 0
        kFullSpace [] br with
    | none => simp [ReadHuffmanCodeLengths, hb, hl]
    | some r =>
      have hlen := readLengthsLoop_lengths_le table ns (ns + 1) 0
        kDefaultCodeLength 0 0 kFullSpace [] br r hl rfl (by omega)
      cases r with
      | fail lens br1 =>
        simp only [RLEExit.lengths] at hlen
        simp [ReadHuffmanCodeLengths, hb, hl, hlen]
      | exit lens s br1 =>
        simp only [RLEExit.lengths] at hlen
        by_cases hs : s = 0
        · simp [ReadHuffmanCodeLengths, hb, hl, hs, hlen]
        · simp [ReadHuffmanCodeLengths, hb, hl, hs, hlen]

/-- Witness for C10: a four-symbol run of length-2 codes fills the buffer to
exactly `num_symbols` entries on success. -/
theorem ReadHuffmanCodeLengths_bounded_witness :
    (ReadHuffmanCodeLengths (fun _ => some fun _ => ⟨2, 2⟩) [] 4
        ⟨List.replicate 8 false, true⟩).2.1.length ≤ 4 ∧
    (ReadHuffmanCodeLengths (fun _ => some fun _ => ⟨2, 2⟩) [] 4
        ⟨List.replicate 8 false, true⟩).2.1.length = 4 :=
  ⟨(ReadHuffmanCodeLengths_bounded (fun _ => some fun _ => ⟨2, 2⟩) [] 4
      ⟨List.replicate 8 false, true⟩).1,
   (ReadHuffmanCodeLengths_bounded (fun _ => some fun _ => ⟨2, 2⟩) [] 4
      ⟨List.replicate 8 false, true⟩).2 (by decide)⟩

/-- Symbols returned by a successful `readSymbols` run are all within the
alphabet (the out-of-range check fires during reading). -/
theorem readSymbols_range (as mb : Nat) :
    ∀ n br syms br2,
      readSymbols as mb n br = (some syms, br2) → ∀ x ∈ syms, x < as := by
  intro n
  induction n with
  | zero =>
    intro br syms br2 h
    simp only [readSymbols, Prod.mk.injEq, Option.some.injEq] at h
    rcases h with ⟨h1, _⟩
    subst h1
    simp
  | succ m ih =>
    intro br syms br2 h
    simp only [readSymbols] at h
    split at h
    · simp at h
    · next hlt =>
      split at h
      · next rest br3 hrec =>
        rw [Prod.mk.injEq] at h
        rcases h with ⟨h1, h2⟩
        cases h1
        intro x hx
        rcases List.mem_cons.mp hx with hx | hx
        · subst hx; omega
        · exact ih _ _ _ hrec x hx
      · simp at h

/-- The pairwise duplicate test is `false` exactly when the symbols are
pairwise distinct. -/
theorem hasDup_eq_false_iff (l : List Nat) :
    hasDup l = false ↔ l.Pairwise (· ≠ ·) := by
  induction l with
  | nil => simp [hasDup]
  | cons x xs ih =>
    simp only [hasDup, Bool.or_eq_false_iff, List.pairwise_cons, ih]
    constructor
    · rintro ⟨h1, h2⟩
      simp at h1
      exact ⟨fun y hy hxy => h1 (hxy ▸ hy), h2⟩
    · rintro ⟨h1, h2⟩
      refine ⟨?_, h2⟩
      simp
      intro hm
      exact h1 x hm rfl

/-- C6: whenever `ReadSimpleCode` succeeds, the enumerated symbols were all
decoded strictly below `alphabet_size` and are pairwise distinct —
equivalently, a decoded symbol at or above the alphabet size, or any two
equal enumerated symbols, force it to return `false` (the out-of-range check
of line 107 and the pairwise scan of lines 113-117). -/
theorem ReadSimpleCode_validates (as : Nat) (br : BrunsliBitReader)
    (t : List HuffmanCode) (h : (ReadSimpleCode as br t).1 = true) :
    ∃ syms br2,
      readSymbols as (simpleMaxBits as) (BrunsliBitReaderGet br 2 + 1)
        (BrunsliBitReaderDrop br 2) = (some syms, br2) ∧
      (∀ x ∈ syms, x < as) ∧ syms.Pairwise (· ≠ ·) := by
  simp only [ReadSimpleCode, BrunsliBitReaderRead] at h
  cases hr : readSymbols as (simpleMaxBits as) (BrunsliBitReaderGet br 2 + 1)
      (BrunsliBitReaderDrop br 2) with
  | mk o br2 =>
    rw [hr] at h
    cases o with
    | none => simp at h
    | some syms =>
      by_cases hd : hasDup syms
      · simp [hd] at h
      · exact ⟨syms, br2, rfl,
          readSymbols_range as (simpleMaxBits as) _ _ _ _ hr,
          (hasDup_eq_false_iff syms).mp (Bool.not_eq_true _ ▸ hd)⟩

/-- Witness for C6: the trivial one-symbol alphabet accepts, and its decoded
symbol list is in range and duplicate free. -/
theorem ReadSimpleCode_validates_witness :
    ∃ syms br2,
      readSymbols 1 (simpleMaxBits 1)
        (BrunsliBitReaderGet ⟨[false, false], true⟩ 2 + 1)
        (BrunsliBitReaderDrop ⟨[false, false], true⟩ 2) = (some syms, br2) ∧
      (∀ x ∈ syms, x < 1) ∧ syms.Pairwise (· ≠ ·) :=
  ReadSimpleCode_validates 1 ⟨[false, false], true⟩
    (List.replicate 256 ⟨0, 0⟩) (by decide)

/-- C2 counterexample: with `alphabet_size = 2`, simple-code mode and a
truncated stream, `ReadFromBitStream` returns `false` but the stored table
has been resized and fully populated (256 entries) — the failed call is not
atomic with respect to the object's stored table. -/
theorem ReadFromBitStream_failure_mutates :
    (ReadFromBitStream (fun _ => none) (fun _ => []) 2
        ⟨[true, false], true⟩ ⟨[]⟩).1 = false ∧
    ¬ ((ReadFromBitStream (fun _ => none) (fun _ => []) 2
        ⟨[true, false], true⟩ ⟨[]⟩).2.1.table_ = []) := by
  decide

/-- C2 amended: on the non-simple path, a `false` return leaves the stored
table either untouched (all checks before the final builder call) or set to
the empty table (zero-size final build); on the simple-code path the stored
table is resized before any validation, so failures there can leave a
modified table behind. -/
theorem ReadFromBitStream_nonsimple_failure
    (mb : List Nat → Option (Nat → HuffmanCode))
    (mainB : List Nat → List HuffmanCode) (as : Nat)
    (br : BrunsliBitReader) (self : HuffmanDecodingData)
    (hsel : BrunsliBitReaderGet br 2 ≠ 1)
    (hf : (ReadFromBitStream mb mainB as br self).1 = false) :
    (ReadFromBitStream mb mainB as br self).2.1 = self ∨
    (ReadFromBitStream mb mainB as br self).2.1.table_ = [] := by
  revert hf
  unfold ReadFromBitStream
  by_cases hg : 2 ^ kMaxHuffmanBits < as
  · rw [if_pos hg]
    intro
    left
    rfl
  · rw [if_neg hg]
    simp only [BrunsliBitReaderRead]
    rw [if_neg hsel]
    split
    all_goals split
    all_goals
      first
        | (intro _; left; rfl)
        | (intro hf
           right
           simp only [decide_eq_false_iff_not, Nat.not_lt,
             Nat.le_zero, List.length_eq_zero] at hf
           simpa using hf)

/-- Witness for the amended C2 at a concrete complex-path failure: an
unhealthy empty stream with a nonempty prior table is rejected with the
stored table untouched. -/
theorem ReadFromBitStream_nonsimple_failure_witness :
    (ReadFromBitStream (fun _ => none) (fun _ => []) 5 ⟨[], false⟩
        ⟨[⟨1, 1⟩]⟩).2.1 = (⟨[⟨1, 1⟩]⟩ : HuffmanDecodingData) ∨
    (ReadFromBitStream (fun _ => none) (fun _ => []) 5 ⟨[], false⟩
        ⟨[⟨1, 1⟩]⟩).2.1.table_ = [] :=
  ReadFromBitStream_nonsimple_failure (fun _ => none) (fun _ => []) 5
    ⟨[], false⟩ ⟨[⟨1, 1⟩]⟩ (by decide) (by decide)

/-- The fixed-width encoding has exactly its width in bits. -/
theorem natToBits_length : ∀ w v, (natToBits w v).length = w := by
  intro w
  induction w with
  | zero => intro v; rfl
  | succ m ih => intro v; simp [natToBits, ih]

/-- Decoding inverts the fixed-width encoding below `2 ^ width`. -/
theorem natOfBits_natToBits : ∀ w v, v < 2 ^ w →
    natOfBits (natToBits w v) = v := by
  intro w
  induction w with
  | zero => intro v hv; interval_cases v; rfl
  | succ m ih =>
    intro v hv
    have h2 : 2 ^ (m + 1) = 2 * 2 ^ m := by ring
    have hd : v / 2 < 2 ^ m := by omega
    simp only [natToBits, natOfBits, ih (v / 2) hd]
    rcases Nat.mod_two_eq_zero_or_one v with h | h <;> simp [h] <;> omega

/-- Reading `w` bits from a stream starting with the `w`-bit encoding of `v`
yields `v` and leaves exactly the tail, preserving health. -/
theorem brRead_encode (w v : Nat) (hv : v < 2 ^ w) (t : List Bool)
    (hb : Bool) :
    BrunsliBitReaderRead ⟨natToBits w v ++ t, hb⟩ w = (v, ⟨t, hb⟩) := by
  have hlen : (natToBits w v).length = w := natToBits_length w v
  have htake : (natToBits w v ++ t).take w = natToBits w v := by
    have h := List.take_left (natToBits w v) t
    rw [hlen] at h
    exact h
  have hdrop : (natToBits w v ++ t).drop w = t := by
    have h := List.drop_left (natToBits w v) t
    rw [hlen] at h
    exact h
  have hle : w ≤ (natToBits w v).length + t.length := by
    simp [hlen]
  simp [BrunsliBitReaderRead, BrunsliBitReaderGet, BrunsliBitReaderDrop,
    htake, hdrop, hle, natOfBits_natToBits w v hv]

/-- Entries of a replicated list with the replicated entry as default. -/
theorem getD_replicate_self {α : Type} (a : α) (n i : Nat) :
    (List.replicate n a).getD i a = a := by
  rcases Nat.lt_or_ge i n with h | h
  · exact getD_replicate_of_lt a a n i h
  · exact List.getD_eq_default _ _ (by simpa using h)

/-- C9 counterexample: with `alphabet_size = 1` and simple-code mode, a
stream whose two-bit count field decodes 2 symbols makes both zero-bit
symbol reads return 0, so the duplicate check rejects: the claim's "always
succeeds for every remaining bit content" fails on this content. -/
theorem ReadFromBitStream_alphabet_one_not_always :
    (ReadFromBitStream (fun _ => none) (fun _ => []) 1
        ⟨[true, false, true, false], true⟩ ⟨[]⟩).1 = false := by
  decide

/-- Resizing the empty stored table fills it with value-initialized
entries. -/
theorem resizeTable_nil :
    resizeTable [] (2 ^ kHuffmanTableBits) = List.replicate 256 ⟨0, 0⟩ := by
  decide

/-- Replication of the all-zero one-entry table fills the root table with
the same entry. -/
theorem replicateTable_zero :
    replicateTable (List.replicate 256 (⟨0, 0⟩ : HuffmanCode)) 1
      (2 ^ kHuffmanTableBits) = List.replicate 256 ⟨0, 0⟩ := by
  decide

/-- Setting the already-zero head of the all-zero table is the identity. -/
theorem set_zero_replicate :
    (List.replicate 256 (⟨0, 0⟩ : HuffmanCode)).set 0 ⟨0, 0⟩ =
      List.replicate 256 ⟨0, 0⟩ := by
  decide

/-- The one-symbol table assignment on the all-zero buffer. -/
theorem buildSimpleTable_one :
    buildSimpleTable (0 + 1) [0] (List.replicate 256 (⟨0, 0⟩ : HuffmanCode)) =
      some (List.replicate 256 ⟨0, 0⟩, 1) := by
  decide

/-- `ReadSimpleCode` on the one-symbol alphabet with a zero count field:
succeeds for any tail, producing the fully replicated all-zero table. -/
theorem ReadSimpleCode_alphabet_one (rest : List Bool) :
    ReadSimpleCode 1 ⟨false :: false :: rest, true⟩
        (List.replicate 256 ⟨0, 0⟩) =
      (true, List.replicate 256 ⟨0, 0⟩, ⟨rest, true⟩) := by
  have hread : BrunsliBitReaderRead ⟨false :: false :: rest, true⟩ 2 =
      (0, ⟨rest, true⟩) := by
    have := brRead_encode 2 0 (by norm_num) rest true
    simpa [natToBits] using this
  have hsym : readSymbols 1 (simpleMaxBits 1) 1 ⟨rest, true⟩ =
      (some [0], ⟨rest, true⟩) := by
    simp [readSymbols, simpleMaxBits, BrunsliBitReaderRead,
      BrunsliBitReaderGet, BrunsliBitReaderDrop, natOfBits]
  have h4 : ¬ ((0 : Nat) + 1 = 4) := by norm_num
  simp only [ReadSimpleCode, hread, hsym]
  rw [show hasDup [0] = false from rfl]
  rw [if_neg h4]
  simp only [Bool.false_eq_true, if_false, buildSimpleTable_one,
    replicateTable_zero, BrunsliBitReaderIsHealthy]

/-- C9 amended: with `alphabet_size = 1`, mode selector 1 and a zero two-bit
count field (one symbol), `ReadFromBitStream` succeeds for every remaining
bit content, each symbol-index field is read in 0 bits, and the resulting
table decodes every root index to the single symbol with 0-bit consumption
(a non-zero count field instead decodes several copies of the single symbol
and is rejected as duplicate). -/
theorem ReadFromBitStream_alphabet_one (rest : List Bool)
    (mb : List Nat → Option (Nat → HuffmanCode))
    (mainB : List Nat → List HuffmanCode) :
    ReadFromBitStream mb mainB 1
        ⟨true :: false :: false :: false :: rest, true⟩ ⟨[]⟩ =
      (true, ⟨List.replicate 256 ⟨0, 0⟩⟩, ⟨rest, true⟩) ∧
    ∀ br2, ReadSymbol ⟨List.replicate 256 ⟨0, 0⟩⟩ br2 = (0, br2) := by
  constructor
  · have hread : BrunsliBitReaderRead
        ⟨true :: false :: false :: false :: rest, true⟩ 2 =
        (1, ⟨false :: false :: rest, true⟩) := by
      have := brRead_encode 2 1 (by norm_num) (false :: false :: rest) true
      simpa [natToBits] using this
    simp only [ReadFromBitStream, hread]
    norm_num [kMaxHuffmanBits]
    rw [resizeTable_nil, ReadSimpleCode_alphabet_one rest]
    exact ⟨rfl, rfl, rfl⟩
  · intro br2
    simp only [ReadSymbol, getD_replicate_self]
    norm_num [kHuffmanTableBits, BrunsliBitReaderDrop_zero]

/-- The alphabet fits in `simpleMaxBits` bits: every value below
`alphabet_size` is representable in the symbol-index width. -/
theorem le_two_pow_simpleMaxBits (as : Nat) (h : 1 ≤ as) :
    as ≤ 2 ^ simpleMaxBits as := by
  unfold simpleMaxBits
  split_ifs with h1
  · have h2 : as - 1 < 2 ^ (Nat.log2 (as - 1) + 1) := by
      rw [Nat.log2_eq_log_two]
      exact Nat.lt_pow_succ_log_self (by norm_num) _
    omega
  · simpa using (by omega : as ≤ 1)

/-- Reading the concatenated fixed-width encodings of in-range symbols
recovers exactly those symbols, leaving the tail. -/
theorem readSymbols_encode (as w : Nat) :
    ∀ (syms : List Nat) (t : List Bool),
      (∀ x ∈ syms, x < as) → (∀ x ∈ syms, x < 2 ^ w) →
      readSymbols as w syms.length
        ⟨(syms.map (natToBits w)).flatten ++ t, true⟩ =
        (some syms, ⟨t, true⟩) := by
  intro syms
  induction syms with
  | nil => intro t _ _; simp [readSymbols]
  | cons x xs ih =>
    intro t hr hw
    have hx : x < as := hr x (by simp)
    have hxw : x < 2 ^ w := hw x (by simp)
    have hflat : ((x :: xs).map (natToBits w)).flatten ++ t =
        natToBits w x ++ (((xs.map (natToBits w)).flatten) ++ t) := by
      simp
    rw [show (x :: xs).length = xs.length + 1 from rfl]
    simp only [readSymbols, hflat, brRead_encode w x hxw _ true]
    rw [if_neg (by omega : ¬ as ≤ x)]
    rw [ih t (fun y hy => hr y (by simp [hy])) (fun y hy => hw y (by simp [hy]))]

/-- `ReadSimpleCode` accepts every well-formed simple-code stream: a count
field for 1 to 4 symbols, that many distinct in-range symbol indices in
`simpleMaxBits alphabet_size` bits each, and (for exactly four) a zero shape
bit, followed by any tail. -/
theorem ReadSimpleCode_success (as : Nat) (h1 : 1 ≤ as)
    (syms : List Nat) (hn1 : 1 ≤ syms.length) (hn4 : syms.length ≤ 4)
    (hrange : ∀ x ∈ syms, x < as) (hdist : syms.Pairwise (· ≠ ·))
    (rest : List Bool) (t : List HuffmanCode) :
    (ReadSimpleCode as
      ⟨natToBits 2 (syms.length - 1) ++
        ((syms.map (natToBits (simpleMaxBits as))).flatten ++
          ((if syms.length = 4 then [false] else []) ++ rest)), true⟩
      t).1 = true := by
  have hc : syms.length - 1 < 2 ^ 2 := by omega
  have hw : ∀ x ∈ syms, x < 2 ^ simpleMaxBits as := fun x hx =>
    lt_of_lt_of_le (hrange x hx) (le_two_pow_simpleMaxBits as h1)
  have hnum : syms.length - 1 + 1 = syms.length := by omega
  have hdup : ¬ (hasDup syms = true) := by
    rw [(hasDup_eq_false_iff syms).mpr hdist]
    simp
  simp only [ReadSimpleCode, brRead_encode 2 (syms.length - 1) hc _ true, hnum,
    readSymbols_encode as (simpleMaxBits as) syms _ hrange hw]
  rw [if_neg hdup]
  by_cases h4 : syms.length = 4
  · rw [if_pos h4]
    have hbit : BrunsliBitReaderRead ⟨[false] ++ rest, true⟩ 1 =
        (0, ⟨rest, true⟩) := by
      have := brRead_encode 1 0 (by norm_num) rest true
      simpa [natToBits] using this
    rw [if_pos h4] at *
    simp only [h4, if_pos rfl] at *
    simp only [hbit]
    simp [buildSimpleTable, BrunsliBitReaderIsHealthy]
  · rw [if_neg h4]
    have h123 : syms.length = 1 ∨ syms.length = 2 ∨ syms.length = 3 := by
      omega
    rcases h123 with hL | hL | hL <;>
      rw [if_neg h4] <;>
      simp [hL, buildSimpleTable, BrunsliBitReaderIsHealthy]

/-- C8 amended: the simple-code fast path handles every alphabet of size 1 to
255 (not 256): mode selector 1 followed by 1 to 4 distinct in-range symbol
values, each read in `ceil(log2(alphabet_size))` bits (0 bits for alphabet
size 1), and a zero shape bit when there are exactly four, builds a table
successfully.  Size 256 cannot succeed because line 204 truncates the
alphabet size to `uint8_t`, so 256 becomes 0 and every symbol read fails the
range check. -/
theorem ReadFromBitStream_simple_small (as : Nat) (h1 : 1 ≤ as)
    (h2 : as ≤ 255) (syms : List Nat) (hn1 : 1 ≤ syms.length)
    (hn4 : syms.length ≤ 4) (hrange : ∀ x ∈ syms, x < as)
    (hdist : syms.Pairwise (· ≠ ·)) (rest : List Bool)
    (mb : List Nat → Option (Nat → HuffmanCode))
    (mainB : List Nat → List HuffmanCode) (self : HuffmanDecodingData) :
    (ReadFromBitStream mb mainB as
      ⟨natToBits 2 1 ++
        (natToBits 2 (syms.length - 1) ++
          ((syms.map (natToBits (simpleMaxBits as))).flatten ++
            ((if syms.length = 4 then [false] else []) ++ rest))), true⟩
      self).1 = true := by
  have hg : ¬ (2 ^ kMaxHuffmanBits < as) := by
    have : (2 : Nat) ^ kMaxHuffmanBits = 32768 := by norm_num [kMaxHuffmanBits]
    omega
  have hmod : as % 256 = as := Nat.mod_eq_of_lt (by omega)
  simp only [ReadFromBitStream, if_neg hg,
    brRead_encode 2 1 (by norm_num) _ true]
  simp only [if_true]
  rw [hmod]
  exact ReadSimpleCode_success as h1 syms hn1 hn4 hrange hdist rest _

/-- C8 counterexample: for `alphabet_size = 256` the claim fails — mode
selector 1 with the claim's own encoding of the single in-range symbol 0
(count field 0, then `ceil(log2 256) = 8` symbol bits) is rejected, because
the `uint8_t` truncation at line 204 turns the alphabet size into 0 and the
zero-bit symbol read of the truncated size fails `symbol >= alphabet_size`. -/
theorem ReadFromBitStream_256_fails :
    (ReadFromBitStream (fun _ => none) (fun _ => []) 256
      ⟨[true, false, false, false] ++ List.replicate 8 false, true⟩
      ⟨[]⟩).1 = false := by
  decide

/-- Witness for the amended C8: alphabet size 2 with the two distinct
symbols 0 and 1. -/
theorem ReadFromBitStream_simple_small_witness :
    (ReadFromBitStream (fun _ => none) (fun _ => []) 2
      ⟨natToBits 2 1 ++
        (natToBits 2 ([0, 1].length - 1) ++
          (([0, 1].map (natToBits (simpleMaxBits 2))).flatten ++
            ((if [0, 1].length = 4 then [false] else []) ++ []))), true⟩
      ⟨[]⟩).1 = true :=
  ReadFromBitStream_simple_small 2 (by decide) (by decide) [0, 1] (by decide)
    (by decide) (by decide) (by decide) [] (fun _ => none) (fun _ => []) ⟨[]⟩
